import Mathlib

/-!
Verification development for the SLA support-point subsystem
(`src/libslic3r/SLA/SLASupportTreeIGL.cpp`): the clustering engine
(`cluster` and its two query strategies) and the degenerate-normal
resolver (`normals`).

Modelling conventions:
* `double` coordinates are modelled exactly by `ℚ`.  The C++ code only ever
  compares square roots of nonnegative quantities against thresholds
  (`std::sqrt s < e`, `std::sqrt s > e`); these comparisons are embedded by
  their exact squared characterizations (`sqrtLtB`, `sqrtGtB`), which agree
  with the real-number comparisons for every rational input.
* The boost r-tree (`Index3D`) is modelled as a `List` of its stored
  elements; the tree's unspecified iteration order becomes the list order.
  `bgi::nearest(p, k)` returns the `k` stored values closest to `p` in
  ascending distance order, and `remove` removes one exact occurrence.
* The outer clustering loop and the recursive `group` lambda are modelled
  with an explicit fuel parameter; `none` is returned when the fuel runs
  out, so "the C++ loop terminates with result r" corresponds to
  "∃ fuel, … = some r" and divergence to "∀ fuel, … = none".
-/

namespace MSlicer

/-- A 3D vector with exact rational coordinates (models Eigen `Vec3d`). -/
structure Vec3 where
  x : ℚ
  y : ℚ
  z : ℚ
deriving DecidableEq, Repr

/-- Componentwise subtraction, models `Vec3d::operator-`. -/
def Vec3.sub (a b : Vec3) : Vec3 := ⟨a.x - b.x, a.y - b.y, a.z - b.z⟩

/-- Componentwise addition, models `Vec3d::operator+`. -/
def Vec3.add (a b : Vec3) : Vec3 := ⟨a.x + b.x, a.y + b.y, a.z + b.z⟩

/-- Dot product, models `Eigen` `.dot` / `p.transpose() * p`. -/
def Vec3.dot (a b : Vec3) : ℚ := a.x * b.x + a.y * b.y + a.z * b.z

/-- Cross product, models `Eigen` `.cross`. -/
def Vec3.cross (a b : Vec3) : Vec3 :=
  ⟨a.y * b.z - a.z * b.y, a.z * b.x - a.x * b.z, a.x * b.y - a.y * b.x⟩

/-- Coordinate sum, models `Eigen` `.sum()`. -/
def Vec3.csum (a : Vec3) : ℚ := a.x + a.y + a.z

/-- Componentwise division by a scalar, models `Vec3d / double`. -/
def Vec3.divScalar (a : Vec3) (q : ℚ) : Vec3 := ⟨a.x / q, a.y / q, a.z / q⟩

/-- The zero vector, models `Vec3d::Zero()`. -/
def Vec3.zero : Vec3 := ⟨0, 0, 0⟩

/-- Sum of a list of vectors starting from zero, models
`std::accumulate(first, last, Vec3d(Vec3d::Zero()))`. -/
def vecListSum (l : List Vec3) : Vec3 := l.foldl Vec3.add Vec3.zero

/-- Squared Euclidean distance: the C++ template
`distance(pp1, pp2) = std::sqrt((pp2-pp1)ᵀ(pp2-pp1))` squared. -/
def sqDist (a b : Vec3) : ℚ := Vec3.dot (Vec3.sub b a) (Vec3.sub b a)

/-- Exact embedding of `std::sqrt s < e` for `s ≥ 0`:
`Real.sqrt s < e ↔ 0 < e ∧ s < e * e` (monotonicity of squaring). -/
def sqrtLtB (s e : ℚ) : Bool := decide (0 < e ∧ s < e * e)

/-- Exact embedding of `std::sqrt s > e` for `s ≥ 0`:
`Real.sqrt s > e ↔ e < 0 ∨ e * e < s`. -/
def sqrtGtB (s e : ℚ) : Bool := decide (e < 0 ∨ e * e < s)

/- ***************************************************************************
 * ClusterEngine: `cluster(Index3D&, unsigned, qfn)` and its two
 * caller-supplied query strategies.
 * ************************************************************************ -/

/-- A stored r-tree value: 3D point plus unsigned payload index
(models `SpatElement = std::pair<Vec3d, unsigned>`). -/
abbrev SpatElement := Vec3 × ℕ

/-- The payload indices of a list of elements. -/
def keys (l : List SpatElement) : List ℕ := l.map Prod.snd

/-- The comparator `cmp = [](e1, e2){ return e1.second < e2.second; }`
used by `std::sort`/`std::set_difference` in `group`, as a nonstrict
order suitable for sorting. -/
def idxLe (a b : SpatElement) : Prop := a.2 ≤ b.2

/-- Strict version of `idxLe` (the literal C++ comparator). -/
def keyLt (a b : SpatElement) : Prop := a.2 < b.2

instance : DecidableRel idxLe := fun a b => inferInstanceAs (Decidable (a.2 ≤ b.2))

instance : DecidableRel keyLt := fun a b => inferInstanceAs (Decidable (a.2 < b.2))

instance : IsTotal SpatElement idxLe := ⟨fun a b => Nat.le_total a.2 b.2⟩

instance : IsTrans SpatElement idxLe := ⟨fun _ _ _ h h' => Nat.le_trans h h'⟩

/-- `std::sort(v.begin(), v.end(), cmp)` with the payload-index comparator. -/
def sortIdx (l : List SpatElement) : List SpatElement := List.insertionSort idxLe l

/-- Fuel-indexed implementation of the `std::set_difference` merge walk;
the fuel strictly exceeds the number of remaining steps whenever it is at
least the combined length of the two ranges (see `setDiffF_fuel_irrel`),
which is how `setDiff` instantiates it.  The fuel only serves to make the
recursion structural; the `0`-fuel arm is unreachable from `setDiff`. -/
def setDiffF : ℕ → List SpatElement → List SpatElement → List SpatElement
  | _, xs, [] => xs
  | _, [], _ :: _ => []
  | 0, _ :: _, _ :: _ => []
  | f + 1, x :: xs, y :: ys =>
    if x.2 < y.2 then x :: setDiffF f xs (y :: ys)
    else if y.2 < x.2 then setDiffF f (x :: xs) ys
    else setDiffF f xs ys

/-- `std::set_difference(tmp, cluster, back_inserter(newpts), cmp)`:
the standard merge-walk over two ranges sorted by payload index. -/
def setDiff (xs ys : List SpatElement) : List SpatElement :=
  setDiffF (xs.length + ys.length) xs ys

/-- The recursive `group` lambda inside `cluster(Index3D&, unsigned, qfn)`.
`sindex` is not mutated while one cluster is being grown, so it is a plain
argument here.  The C++ recursion has no structural bound (it recurses on
freshly queried points), hence the fuel; `none` models a recursion that
would still be running when the fuel is exhausted. -/
def group (qfn : List SpatElement → SpatElement → List SpatElement)
    (sindex : List SpatElement) (mp : ℕ) :
    ℕ → List SpatElement → List SpatElement → Option (List SpatElement)
  | _, [], cl => some cl
  | 0, _ :: _, _ => none
  | fuel + 1, p :: ps, cl =>
    let tmp := sortIdx (qfn sindex p)
    let newpts := setDiff tmp cl
    -- int c = max_points && newpts.size() + cluster.size() > max_points ?
    --             int(max_points - cluster.size()) : int(newpts.size());
    let c : ℕ := if mp ≠ 0 ∧ mp < newpts.length + cl.length
                 then mp - cl.length else newpts.length
    let cl2 := sortIdx (cl ++ newpts.take c)
    if newpts ≠ [] ∧ (mp = 0 ∨ cl2.length < mp) then
      match group qfn sindex mp fuel newpts cl2 with
      | none => none
      | some cl3 => group qfn sindex mp fuel ps cl3
    else
      group qfn sindex mp fuel ps cl2

/-- `sindex.remove(c)`: remove one stored value equal to `c` (pair
equality), if present. -/
def removeOne (c : SpatElement) : List SpatElement → List SpatElement
  | [] => []
  | x :: xs => if x = c then xs else x :: removeOne c xs

/-- `for(auto& c : cluster) sindex.remove(c);` — each removal erases one
exact occurrence from the r-tree. -/
def removeAll (cl sindex : List SpatElement) : List SpatElement :=
  cl.foldl (fun s c => removeOne c s) sindex

/-- The outer loop of `cluster(Index3D&, unsigned, qfn)`: seed a cluster
from the first remaining element, grow it with `group`, remove its members,
repeat until the index is empty.  Fuel-indexed: `none` models
non-termination (the loop body leaves the index unchanged whenever the
grown cluster is empty). -/
def clusterRaw (qfn : List SpatElement → SpatElement → List SpatElement)
    (mp : ℕ) : ℕ → List SpatElement → Option (List (List SpatElement))
  | _, [] => some []
  | 0, _ :: _ => none
  | fuel + 1, e :: rest =>
    match group qfn (e :: rest) mp (fuel + 1) [e] [] with
    | none => none
    | some cl =>
      match clusterRaw qfn mp fuel (removeAll cl (e :: rest)) with
      | none => none
      | some cls => some (cl :: cls)

/-- `cluster(Index3D&, unsigned, qfn)` including the final projection to
payload indices (`result.back().emplace_back(c.second)`). -/
def clusterIndex3D (sindex : List SpatElement) (mp : ℕ)
    (qfn : List SpatElement → SpatElement → List SpatElement) (fuel : ℕ) :
    Option (List (List ℕ)) :=
  (clusterRaw qfn mp fuel sindex).map (fun cls => cls.map keys)

/-- Ascending-distance order from a fixed query point (the order in which
`bgi::nearest` yields stored values). -/
def distLeFrom (q : Vec3) (a b : SpatElement) : Prop :=
  sqDist q a.1 ≤ sqDist q b.1

instance (q : Vec3) : DecidableRel (distLeFrom q) :=
  fun a b => inferInstanceAs (Decidable (sqDist q a.1 ≤ sqDist q b.1))

/-- `sindex.query(bgi::nearest(pt, k), back_inserter(tmp))`: the `k`
stored values nearest to `pt`, ascending by distance. -/
def nearestK (sindex : List SpatElement) (pt : Vec3) (k : ℕ) :
    List SpatElement :=
  (List.insertionSort (distLeFrom pt) sindex).take k

/-- The erase loop of `distance_queryfn`:
`for(auto it = tmp.begin(); it < tmp.end(); ++it)
   if(distance(p.first, it->first) > dist) it = tmp.erase(it);`
`erase` returns the iterator to the element after the erased one and the
loop then increments it, so the element immediately following an erased
element is never examined. -/
def eraseFar (p : Vec3) (dist : ℚ) : List SpatElement → List SpatElement
  | [] => []
  | [x] => if sqrtGtB (sqDist p x.1) dist then [] else [x]
  | x :: y :: rest =>
    if sqrtGtB (sqDist p x.1) dist then y :: eraseFar p dist rest
    else x :: eraseFar p dist (y :: rest)

/-- `distance_queryfn(sindex, p, dist, max_points)`. -/
def distance_queryfn (sindex : List SpatElement) (p : SpatElement)
    (dist : ℚ) (max_points : ℕ) : List SpatElement :=
  eraseFar p.1 dist (nearestK sindex p.1 max_points)

/-- `cluster(const std::vector<unsigned>&, pointfn, double, unsigned)`:
build the index from the payload indices, then cluster with the
distance-bounded query strategy. -/
def cluster_by_distance (indices : List ℕ) (pointfn : ℕ → Vec3)
    (dist : ℚ) (mp fuel : ℕ) : Option (List (List ℕ)) :=
  clusterIndex3D (indices.map fun i => (pointfn i, i)) mp
    (fun s p => distance_queryfn s p dist mp) fuel

/-- `cluster(const std::vector<unsigned>&, pointfn, predicate, unsigned)`:
build the index, then cluster with the predicate-bounded query strategy
(`sidx.query(bgi::satisfies(...))` returns the stored values satisfying
the predicate, in iteration order). -/
def cluster_by_predicate (indices : List ℕ) (pointfn : ℕ → Vec3)
    (predicate : SpatElement → SpatElement → Bool) (mp fuel : ℕ) :
    Option (List (List ℕ)) :=
  clusterIndex3D (indices.map fun i => (pointfn i, i)) mp
    (fun s p => s.filter (fun e => predicate p e)) fuel

/- ***************************************************************************
 * NormalResolver: `point_on_edge` and `normals` (the `proc` lambda).
 * ************************************************************************ -/

/-- Squared perpendicular distance from `p` to the infinite line through
`e1` and `e2` (the square of Eigen's `ParametrizedLine::distance` for the
line `Line3D::Through(e1, e2)`):
`|p-e1|² − ((p-e1)·(e2-e1))² / |e2-e1|²`. -/
def lineSqDist (p e1 e2 : Vec3) : ℚ :=
  sqDist e1 p -
    Vec3.dot (Vec3.sub p e1) (Vec3.sub e2 e1) *
      Vec3.dot (Vec3.sub p e1) (Vec3.sub e2 e1) / sqDist e1 e2

/-- `point_on_edge(p, e1, e2, eps)`: `std::abs(line.distance(p)) < eps`
where the line is the infinite line through `e1`, `e2` (not the segment).
When `e1 = e2` the C++ direction is `0/0 = NaN`, every comparison with a
NaN is false, hence the guard. -/
def point_on_edge (p e1 e2 : Vec3) (eps : ℚ) : Bool :=
  if e1 = e2 then false else sqrtLtB (lineSqDist p e1 e2) eps

/-- Mesh consumed by `normals`: vertex array `V` and face array `F` of
vertex-index triples (`EigenMesh3D::V()` / `::F()`). -/
structure Mesh where
  V : List Vec3
  F : List (ℕ × ℕ × ℕ)

/-- `mesh.V().row(i)`.  Out-of-range access is UB in C++; the default is
never exercised by well-formed meshes (and never by the theorems below). -/
def vtx (mesh : Mesh) (i : ℕ) : Vec3 := mesh.V.getD i Vec3.zero

/-- Result of the `ia`/`ib`/`ic` marking chain of the `proc` lambda:
the closest point lies on a vertex (`ic ≥ 0`), on an edge
(`ia, ib ≥ 0`), or in the face interior (all three left at `-1`). -/
inductive DegClass where
  | onVertex (ic : ℕ)
  | onEdge (ia ib : ℕ)
  | interior
deriving DecidableEq, Repr

/-- The classification if-chain of the `proc` lambda (lines 310–327):
vertices `p1`, `p2`, `p3` are tested first in that order against the
Euclidean distance, then the edges `(p1,p2)`, `(p2,p3)`, `(p1,p3)`
against the infinite-line distance; `i1 i2 i3` are the face's global
vertex indices (`trindex(0..2)`). -/
def classify (p p1 p2 p3 : Vec3) (i1 i2 i3 : ℕ) (eps : ℚ) : DegClass :=
  if sqrtLtB (sqDist p p1) eps then DegClass.onVertex i1
  else if sqrtLtB (sqDist p p2) eps then DegClass.onVertex i2
  else if sqrtLtB (sqDist p p3) eps then DegClass.onVertex i3
  else if point_on_edge p p1 p2 eps then DegClass.onEdge i1 i2
  else if point_on_edge p p2 p3 eps then DegClass.onEdge i2 i3
  else if point_on_edge p p1 p3 eps then DegClass.onEdge i1 i3
  else DegClass.interior

/-- `ni(X) == i || ni(Y) == i || ni(Z) == i` for a face triple. -/
def triContains (i : ℕ) (t : ℕ × ℕ × ℕ) : Bool :=
  decide (t.1 = i) || decide (t.2.1 = i) || decide (t.2.2 = i)

/-- Un-normalized face normal `(pt2-pt1).cross(pt3-pt1)` of a face. -/
def faceNormal (mesh : Mesh) (t : ℕ × ℕ × ℕ) : Vec3 :=
  Vec3.cross (Vec3.sub (vtx mesh t.2.1) (vtx mesh t.1))
             (Vec3.sub (vtx mesh t.2.2) (vtx mesh t.1))

/-- The `std::sort` comparator `v1.sum() < v2.sum()` as a nonstrict order
for sorting the neighbor normals by coordinate sum. -/
def sumLe (a b : Vec3) : Prop := a.csum ≤ b.csum

instance : DecidableRel sumLe := fun a b => inferInstanceAs (Decidable (a.csum ≤ b.csum))

instance : IsTotal Vec3 sumLe := ⟨fun a b => le_total a.csum b.csum⟩

instance : IsTrans Vec3 sumLe := ⟨fun _ _ _ h h' => le_trans h h'⟩

/-- The `deq` lambda: two normals are equivalent when all three
coordinatewise absolute differences are below `1e-3`. -/
def deqB (a b : Vec3) : Bool :=
  decide (|a.x - b.x| < 1 / 1000 ∧ |a.y - b.y| < 1 / 1000 ∧ |a.z - b.z| < 1 / 1000)

/-- Tail walk of `std::unique`: keep a candidate iff it is not equivalent
to the last kept element. -/
def collapseGo (last : Vec3) : List Vec3 → List Vec3
  | [] => []
  | y :: ys => if deqB last y then collapseGo last ys else y :: collapseGo y ys

/-- `std::unique(first, last, deq)`: collapse adjacent equivalents,
keeping the first element of every run (comparisons are made against the
last retained element, exactly as `std::unique` does). -/
def collapseAdj : List Vec3 → List Vec3
  | [] => []
  | x :: xs => x :: collapseGo x xs

/-- The per-query `proc` lambda of `normals`.  `oracle` models
`EigenMesh3D::squared_distance` (the igl AABB closest-point collaborator):
it returns the owning face id (negative = none) and the closest surface
point.  `normed` models Eigen's `.normalized()` (the only irrational step
of the routine); it is applied to each neighbor face normal.  `none`
models the early `return` that leaves the output row untouched when
`faceid < 0`. -/
def proc (mesh : Mesh) (oracle : Vec3 → ℤ × Vec3) (eps : ℚ)
    (normed : Vec3 → Vec3) (pt : Vec3) : Option Vec3 :=
  let faceid := (oracle pt).1
  let p := (oracle pt).2
  if faceid < 0 then none
  else
    let tr := mesh.F.getD faceid.toNat (0, 0, 0)
    let p1 := vtx mesh tr.1
    let p2 := vtx mesh tr.2.1
    let p3 := vtx mesh tr.2.2
    let neigh :=
      match classify p p1 p2 p3 tr.1 tr.2.1 tr.2.2 eps with
      | DegClass.onVertex ic => mesh.F.filter (fun t => triContains ic t)
      | DegClass.onEdge ia ib =>
          mesh.F.filter (fun t => triContains ia t && triContains ib t)
      | DegClass.interior => []
    if neigh.isEmpty then
      some (Vec3.cross (Vec3.sub p2 p1) (Vec3.sub p3 p1))
    else
      let neighnorms := neigh.map (fun t => normed (faceNormal mesh t))
      let surv := collapseAdj (List.insertionSort sumLe neighnorms)
      some (Vec3.divScalar (vecListSum surv) (surv.length : ℚ))

/-- `normals(pfn, mesh, eps, pt_indices, thr)`.  The cancellation callback
`thr` either does nothing or aborts the whole batch; the successful runs
modelled here are those where it does nothing.  The tbb-parallel loop
writes each query's result to its own row with no cross-iteration state,
so it is the map over the query indices. -/
def normals (pfn : ℕ → Vec3) (mesh : Mesh) (oracle : Vec3 → ℤ × Vec3)
    (eps : ℚ) (normed : Vec3 → Vec3) (pt_indices : List ℕ) :
    List (Option Vec3) :=
  if pt_indices = [] ∨ mesh.V = [] ∨ mesh.F = [] then []
  else pt_indices.map (fun i => proc mesh oracle eps normed (pfn i))

/- ***************************************************************************
 * Helper lemmas: sorting, set difference, removal bookkeeping.
 * ************************************************************************ -/

theorem keys_cons (y : SpatElement) (ys : List SpatElement) :
    keys (y :: ys) = y.2 :: keys ys := rfl

theorem setDiffF_nil_right (f : ℕ) (xs : List SpatElement) :
    setDiffF f xs [] = xs := by
  cases f <;> cases xs <;> rfl

theorem setDiffF_nil_left (f : ℕ) (y : SpatElement) (ys : List SpatElement) :
    setDiffF f [] (y :: ys) = [] := by
  cases f <;> rfl

theorem setDiffF_succ_cons (f : ℕ) (x : SpatElement) (xs : List SpatElement)
    (y : SpatElement) (ys : List SpatElement) :
    setDiffF (f + 1) (x :: xs) (y :: ys) =
      if x.2 < y.2 then x :: setDiffF f xs (y :: ys)
      else if y.2 < x.2 then setDiffF f (x :: xs) ys
      else setDiffF f xs ys := rfl

theorem setDiffF_fuel_irrel :
    ∀ f g : ℕ, ∀ xs ys : List SpatElement,
      xs.length + ys.length ≤ f → xs.length + ys.length ≤ g →
      setDiffF f xs ys = setDiffF g xs ys := by
  intro f
  induction f with
  | zero =>
      intro g xs ys hf hg
      cases xs with
      | nil =>
          cases ys with
          | nil => rw [setDiffF_nil_right, setDiffF_nil_right]
          | cons y ys => rw [setDiffF_nil_left, setDiffF_nil_left]
      | cons x xs =>
          cases ys with
          | nil => rw [setDiffF_nil_right, setDiffF_nil_right]
          | cons y ys => simp [List.length_cons] at hf
  | succ f ih =>
      intro g xs ys hf hg
      cases xs with
      | nil =>
          cases ys with
          | nil => rw [setDiffF_nil_right, setDiffF_nil_right]
          | cons y ys => rw [setDiffF_nil_left, setDiffF_nil_left]
      | cons x xs =>
          cases ys with
          | nil => rw [setDiffF_nil_right, setDiffF_nil_right]
          | cons y ys =>
              cases g with
              | zero => simp [List.length_cons] at hg
              | succ g =>
                  rw [setDiffF_succ_cons, setDiffF_succ_cons]
                  simp only [List.length_cons] at hf hg
                  by_cases h1 : x.2 < y.2
                  · rw [if_pos h1, if_pos h1]
                    rw [ih g xs (y :: ys) (by simp only [List.length_cons]; omega)
                      (by simp only [List.length_cons]; omega)]
                  · by_cases h2 : y.2 < x.2
                    · rw [if_neg h1, if_neg h1, if_pos h2, if_pos h2]
                      exact ih g (x :: xs) ys (by simp only [List.length_cons]; omega)
                        (by simp only [List.length_cons]; omega)
                    · rw [if_neg h1, if_neg h1, if_neg h2, if_neg h2]
                      exact ih g xs ys (by omega) (by omega)

theorem setDiffF_eq_setDiff (f : ℕ) (xs ys : List SpatElement)
    (h : xs.length + ys.length ≤ f) : setDiffF f xs ys = setDiff xs ys :=
  setDiffF_fuel_irrel f (xs.length + ys.length) xs ys h (Nat.le_refl _)

theorem setDiff_nil_right (xs : List SpatElement) : setDiff xs [] = xs :=
  setDiffF_nil_right _ xs

theorem setDiff_nil_left (y : SpatElement) (ys : List SpatElement) :
    setDiff [] (y :: ys) = [] :=
  setDiffF_nil_left _ y ys

theorem setDiff_cons_cons (x : SpatElement) (xs : List SpatElement)
    (y : SpatElement) (ys : List SpatElement) :
    setDiff (x :: xs) (y :: ys) =
      if x.2 < y.2 then x :: setDiff xs (y :: ys)
      else if y.2 < x.2 then setDiff (x :: xs) ys
      else setDiff xs ys := by
  have hf1 : setDiffF ((x :: xs).length + ys.length) xs (y :: ys)
      = setDiff xs (y :: ys) :=
    setDiffF_eq_setDiff _ _ _ (by simp only [List.length_cons]; omega)
  have hf2 : setDiffF ((x :: xs).length + ys.length) (x :: xs) ys
      = setDiff (x :: xs) ys :=
    setDiffF_eq_setDiff _ _ _ (by simp only [List.length_cons]; omega)
  have hf3 : setDiffF ((x :: xs).length + ys.length) xs ys
      = setDiff xs ys :=
    setDiffF_eq_setDiff _ _ _ (by simp only [List.length_cons]; omega)
  have h0 : setDiff (x :: xs) (y :: ys)
      = setDiffF (((x :: xs).length + ys.length) + 1) (x :: xs) (y :: ys) := rfl
  rw [h0, setDiffF_succ_cons, hf1, hf2, hf3]

theorem keys_nodup_of_pairwise_keyLt {l : List SpatElement}
    (h : List.Pairwise keyLt l) : (keys l).Nodup := by
  unfold keys
  exact List.pairwise_map.mpr (h.imp fun hab => Nat.ne_of_lt hab)

theorem nodup_of_pairwise_keyLt {l : List SpatElement}
    (h : List.Pairwise keyLt l) : l.Nodup :=
  h.imp fun hab => fun he => absurd (congrArg Prod.snd he) (Nat.ne_of_lt hab)

theorem pairwise_keyLt_of_sorted_nodup {l : List SpatElement}
    (hs : List.Pairwise idxLe l) (hn : (keys l).Nodup) :
    List.Pairwise keyLt l := by
  have hne : List.Pairwise (fun a b : SpatElement => a.2 ≠ b.2) l :=
    List.pairwise_map.mp hn
  exact (hs.and hne).imp fun hab => Nat.lt_of_le_of_ne hab.1 hab.2

theorem keys_nodup_restrict {s l : List SpatElement}
    (hs : (keys s).Nodup) (hl : l.Nodup) (hsub : ∀ e ∈ l, e ∈ s) :
    (keys l).Nodup := by
  refine List.Nodup.map_on ?_ hl
  intro x hx y hy hxy
  exact List.inj_on_of_nodup_map hs (hsub x hx) (hsub y hy) hxy

theorem setDiffF_sublist :
    ∀ f : ℕ, ∀ xs ys : List SpatElement, List.Sublist (setDiffF f xs ys) xs := by
  intro f
  induction f with
  | zero =>
      intro xs ys
      cases xs with
      | nil =>
          cases ys with
          | nil => rw [setDiffF_nil_right]
          | cons y ys => rw [setDiffF_nil_left]
      | cons x xs =>
          cases ys with
          | nil => rw [setDiffF_nil_right]
          | cons y ys => exact List.nil_sublist _
  | succ f ih =>
      intro xs ys
      cases xs with
      | nil =>
          cases ys with
          | nil => rw [setDiffF_nil_right]
          | cons y ys => rw [setDiffF_nil_left]
      | cons x xs =>
          cases ys with
          | nil => rw [setDiffF_nil_right]
          | cons y ys =>
              rw [setDiffF_succ_cons]
              by_cases h1 : x.2 < y.2
              · rw [if_pos h1]; exact (ih xs (y :: ys)).cons₂ x
              · by_cases h2 : y.2 < x.2
                · rw [if_neg h1, if_pos h2]; exact ih (x :: xs) ys
                · rw [if_neg h1, if_neg h2]; exact (ih xs ys).cons x

theorem setDiff_sublist (xs ys : List SpatElement) :
    List.Sublist (setDiff xs ys) xs :=
  setDiffF_sublist _ xs ys

theorem mem_setDiffF_key :
    ∀ f : ℕ, ∀ xs ys : List SpatElement,
      List.Pairwise idxLe xs → (keys xs).Nodup → List.Pairwise keyLt ys →
      ∀ e ∈ setDiffF f xs ys, e.2 ∉ keys ys := by
  intro f
  induction f with
  | zero =>
      intro xs ys _ _ _ e he
      cases xs with
      | nil =>
          cases ys with
          | nil => intro _; rw [setDiffF_nil_right] at he; exact List.not_mem_nil e he
          | cons y ys =>
              rw [setDiffF_nil_left] at he
              exact absurd he (List.not_mem_nil e)
      | cons x xs =>
          cases ys with
          | nil => intro hk; exact List.not_mem_nil e.2 hk
          | cons y ys => exact absurd he (List.not_mem_nil e)
  | succ f ih =>
      intro xs ys hs hn hy e he hkey
      cases xs with
      | nil =>
          cases ys with
          | nil => exact List.not_mem_nil e.2 hkey
          | cons y ys =>
              rw [setDiffF_nil_left] at he
              exact absurd he (List.not_mem_nil e)
      | cons x xs =>
          cases ys with
          | nil => exact List.not_mem_nil e.2 hkey
          | cons y ys =>
              rw [setDiffF_succ_cons] at he
              rw [keys_cons] at hkey
              by_cases h1 : x.2 < y.2
              · rw [if_pos h1] at he
                rcases List.mem_cons.mp he with he | he
                · -- e = x has key below every key of y :: ys
                  subst he
                  rcases List.mem_cons.mp hkey with hk | hk
                  · omega
                  · rcases List.mem_map.mp hk with ⟨b, hb, hbk⟩
                    have := (List.pairwise_cons.mp hy).1 b hb
                    unfold keyLt at this
                    omega
                · exact ih xs (y :: ys) (List.pairwise_cons.mp hs).2
                    (List.nodup_cons.mp hn).2 hy e he (by rw [keys_cons]; exact hkey)
              · by_cases h2 : y.2 < x.2
                · rw [if_neg h1, if_pos h2] at he
                  have hmem : e ∈ x :: xs := (setDiffF_sublist _ _ _).subset he
                  -- every element of x :: xs has key ≥ x.2 > y.2, so key ≠ y.2
                  have hge : x.2 ≤ e.2 := by
                    rcases List.mem_cons.mp hmem with hmem | hmem
                    · subst hmem; exact Nat.le_refl _
                    · exact (List.pairwise_cons.mp hs).1 e hmem
                  rcases List.mem_cons.mp hkey with hk | hk
                  · omega
                  · exact ih (x :: xs) ys hs hn (List.pairwise_cons.mp hy).2 e he hk
                · rw [if_neg h1, if_neg h2] at he
                  have hxy : x.2 = y.2 := by omega
                  have hmem : e ∈ xs := (setDiffF_sublist _ _ _).subset he
                  rcases List.mem_cons.mp hkey with hk | hk
                  · -- key x.2 = y.2 occurs in xs, contradicting nodup keys
                    have hek : e.2 ∈ keys xs := List.mem_map.mpr ⟨e, hmem, rfl⟩
                    have hx : x.2 ∉ keys xs := (List.nodup_cons.mp hn).1
                    rw [hk] at hek
                    rw [hxy] at hx
                    exact hx hek
                  · exact ih xs ys (List.pairwise_cons.mp hs).2
                      (List.nodup_cons.mp hn).2 (List.pairwise_cons.mp hy).2 e he hk

theorem mem_setDiff_key (xs ys : List SpatElement)
    (hs : List.Pairwise idxLe xs) (hn : (keys xs).Nodup)
    (hy : List.Pairwise keyLt ys) :
    ∀ e ∈ setDiff xs ys, e.2 ∉ keys ys :=
  mem_setDiffF_key _ xs ys hs hn hy

theorem sortIdx_perm (l : List SpatElement) : List.Perm (sortIdx l) l :=
  List.perm_insertionSort idxLe l

theorem sortIdx_sorted (l : List SpatElement) : List.Pairwise idxLe (sortIdx l) :=
  List.sorted_insertionSort idxLe l

theorem removeOne_sublist (c : SpatElement) :
    ∀ s : List SpatElement, List.Sublist (removeOne c s) s := by
  intro s
  induction s with
  | nil => exact List.Sublist.refl []
  | cons x xs ih =>
      rw [removeOne]
      by_cases hx : x = c
      · rw [if_pos hx]; exact (List.sublist_cons_self x xs)
      · rw [if_neg hx]; exact ih.cons₂ x

theorem perm_cons_removeOne (c : SpatElement) :
    ∀ s : List SpatElement, c ∈ s → List.Perm s (c :: removeOne c s) := by
  intro s
  induction s with
  | nil => intro h; exact absurd h (List.not_mem_nil c)
  | cons x xs ih =>
      intro hc
      rw [removeOne]
      by_cases hx : x = c
      · rw [if_pos hx, hx]
      · rw [if_neg hx]
        have hcx : c ∈ xs := by
          rcases List.mem_cons.mp hc with h | h
          · exact absurd h.symm hx
          · exact h
        exact ((ih hcx).cons x).trans (List.Perm.swap c x _)

theorem mem_removeOne_of_ne {e c : SpatElement} (hne : e ≠ c) :
    ∀ {s : List SpatElement}, e ∈ s → e ∈ removeOne c s := by
  intro s
  induction s with
  | nil => intro h; exact absurd h (List.not_mem_nil e)
  | cons x xs ih =>
      intro he
      rw [removeOne]
      by_cases hx : x = c
      · rw [if_pos hx]
        rcases List.mem_cons.mp he with h | h
        · exact absurd (h.trans hx) hne
        · exact h
      · rw [if_neg hx]
        rcases List.mem_cons.mp he with h | h
        · exact h ▸ List.mem_cons_self x _
        · exact List.mem_cons_of_mem x (ih h)

theorem removeAll_sublist :
    ∀ cl s : List SpatElement, List.Sublist (removeAll cl s) s := by
  intro cl
  induction cl with
  | nil => intro s; exact List.Sublist.refl s
  | cons c cl ih =>
      intro s
      have h1 : removeAll (c :: cl) s = removeAll cl (removeOne c s) := rfl
      rw [h1]
      exact (ih (removeOne c s)).trans (removeOne_sublist c s)

theorem perm_removeAll :
    ∀ cl s : List SpatElement, cl.Nodup → (∀ e ∈ cl, e ∈ s) →
      List.Perm s (cl ++ removeAll cl s) := by
  intro cl
  induction cl with
  | nil => intro s _ _; exact (List.Perm.refl s)
  | cons c cl ih =>
      intro s hnd hsub
      have hc : c ∈ s := hsub c (List.mem_cons_self c cl)
      have h1 : removeAll (c :: cl) s = removeAll cl (removeOne c s) := rfl
      have hsub' : ∀ e ∈ cl, e ∈ removeOne c s := by
        intro e he
        have hne : e ≠ c := by
          intro hec
          exact (List.nodup_cons.mp hnd).1 (hec ▸ he)
        exact mem_removeOne_of_ne hne (hsub e (List.mem_cons_of_mem c he))
      have hperm := ih (removeOne c s) (List.nodup_cons.mp hnd).2 hsub'
      have h2 : List.Perm s (c :: removeOne c s) := perm_cons_removeOne c s hc
      have h3 : List.Perm (c :: removeOne c s)
          (c :: (cl ++ removeAll cl (removeOne c s))) := hperm.cons c
      rw [h1]
      exact h2.trans h3

/- ***************************************************************************
 * The `group` invariant: clusters stay strictly sorted by payload index
 * and drawn from the index that is being queried.
 * ************************************************************************ -/

theorem group_nil (qfn : List SpatElement → SpatElement → List SpatElement)
    (sindex : List SpatElement) (mp fuel : ℕ) (cl : List SpatElement) :
    group qfn sindex mp fuel [] cl = some cl := by
  cases fuel <;> rfl

theorem group_zero (qfn : List SpatElement → SpatElement → List SpatElement)
    (sindex : List SpatElement) (mp : ℕ) (p : SpatElement)
    (ps cl : List SpatElement) :
    group qfn sindex mp 0 (p :: ps) cl = none := rfl

theorem group_succ_cons (qfn : List SpatElement → SpatElement → List SpatElement)
    (sindex : List SpatElement) (mp fuel : ℕ) (p : SpatElement)
    (ps cl : List SpatElement) :
    group qfn sindex mp (fuel + 1) (p :: ps) cl =
      (let tmp := sortIdx (qfn sindex p)
       let newpts := setDiff tmp cl
       let c : ℕ := if mp ≠ 0 ∧ mp < newpts.length + cl.length
                    then mp - cl.length else newpts.length
       let cl2 := sortIdx (cl ++ newpts.take c)
       if newpts ≠ [] ∧ (mp = 0 ∨ cl2.length < mp) then
         match group qfn sindex mp fuel newpts cl2 with
         | none => none
         | some cl3 => group qfn sindex mp fuel ps cl3
       else
         group qfn sindex mp fuel ps cl2) := rfl

theorem group_spec (qfn : List SpatElement → SpatElement → List SpatElement)
    (sindex : List SpatElement) (mp : ℕ)
    (hq : ∀ p, (∀ e ∈ qfn sindex p, e ∈ sindex) ∧ (qfn sindex p).Nodup)
    (hk : (keys sindex).Nodup) :
    ∀ fuel pts cl cl', List.Pairwise keyLt cl → (∀ e ∈ cl, e ∈ sindex) →
      group qfn sindex mp fuel pts cl = some cl' →
      List.Pairwise keyLt cl' ∧ ∀ e ∈ cl', e ∈ sindex := by
  intro fuel
  induction fuel with
  | zero =>
      intro pts cl cl' hcl hsub h
      cases pts with
      | nil =>
          rw [group_nil] at h
          cases h
          exact ⟨hcl, hsub⟩
      | cons p ps =>
          rw [group_zero] at h
          cases h
  | succ fuel ih =>
      intro pts cl cl' hcl hsub h
      cases pts with
      | nil =>
          rw [group_nil] at h
          cases h
          exact ⟨hcl, hsub⟩
      | cons p ps =>
          simp only [group_succ_cons] at h
          set tmp := sortIdx (qfn sindex p) with htmp_def
          set newpts := setDiff tmp cl with hnew_def
          set c := (if mp ≠ 0 ∧ mp < newpts.length + cl.length
                    then mp - cl.length else newpts.length) with hc_def
          set cl2 := sortIdx (cl ++ newpts.take c) with hcl2_def
          -- facts about tmp, newpts and cl2
          have htmp_sorted : List.Pairwise idxLe tmp := sortIdx_sorted _
          have htmp_perm : List.Perm tmp (qfn sindex p) := sortIdx_perm _
          have htmp_sub : ∀ e ∈ tmp, e ∈ sindex :=
            fun e he => (hq p).1 e (htmp_perm.mem_iff.mp he)
          have htmp_nd : tmp.Nodup := htmp_perm.nodup_iff.mpr (hq p).2
          have htmp_knd : (keys tmp).Nodup := keys_nodup_restrict hk htmp_nd htmp_sub
          have hnp_sl : List.Sublist newpts tmp := setDiff_sublist tmp cl
          have hnp_sub : ∀ e ∈ newpts, e ∈ sindex :=
            fun e he => htmp_sub e (hnp_sl.subset he)
          have hnp_knd : (keys newpts).Nodup :=
            List.Nodup.sublist (hnp_sl.map Prod.snd) htmp_knd
          have hnp_disj : ∀ e ∈ newpts, e.2 ∉ keys cl :=
            mem_setDiff_key tmp cl htmp_sorted htmp_knd hcl
          have htake : List.Sublist (newpts.take c) newpts := List.take_sublist c newpts
          have happ_knd : (keys (cl ++ newpts.take c)).Nodup := by
            unfold keys
            rw [List.map_append]
            refine List.Nodup.append (keys_nodup_of_pairwise_keyLt hcl) ?_ ?_
            · exact List.Nodup.sublist (htake.map Prod.snd) hnp_knd
            · intro a ha hb
              rcases List.mem_map.mp hb with ⟨e, he, hek⟩
              exact hnp_disj e (htake.subset he) (hek ▸ ha)
          have hcl2_perm : List.Perm cl2 (cl ++ newpts.take c) := sortIdx_perm _
          have hcl2_knd : (keys cl2).Nodup := by
            have := (hcl2_perm.map Prod.snd).nodup_iff
            exact this.mpr happ_knd
          have hcl2_pair : List.Pairwise keyLt cl2 :=
            pairwise_keyLt_of_sorted_nodup (sortIdx_sorted _) hcl2_knd
          have hcl2_sub : ∀ e ∈ cl2, e ∈ sindex := by
            intro e he
            rcases List.mem_append.mp (hcl2_perm.mem_iff.mp he) with he | he
            · exact hsub e he
            · exact hnp_sub e (htake.subset he)
          split at h
          · -- recursion branch
            cases hg : group qfn sindex mp fuel newpts cl2 with
            | none => rw [hg] at h; cases h
            | some cl3 =>
                rw [hg] at h
                have h3 := ih newpts cl2 cl3 hcl2_pair hcl2_sub hg
                exact ih ps cl3 cl' h3.1 h3.2 h
          · exact ih ps cl2 cl' hcl2_pair hcl2_sub h

/- ***************************************************************************
 * The outer loop: partition and size-cap invariants.
 * ************************************************************************ -/

theorem clusterRaw_nil (qfn : List SpatElement → SpatElement → List SpatElement)
    (mp fuel : ℕ) : clusterRaw qfn mp fuel [] = some [] := by
  cases fuel <;> rfl

theorem clusterRaw_zero (qfn : List SpatElement → SpatElement → List SpatElement)
    (mp : ℕ) (e : SpatElement) (rest : List SpatElement) :
    clusterRaw qfn mp 0 (e :: rest) = none := rfl

theorem clusterRaw_succ (qfn : List SpatElement → SpatElement → List SpatElement)
    (mp fuel : ℕ) (e : SpatElement) (rest : List SpatElement) :
    clusterRaw qfn mp (fuel + 1) (e :: rest) =
      (match group qfn (e :: rest) mp (fuel + 1) [e] [] with
       | none => none
       | some cl =>
         match clusterRaw qfn mp fuel (removeAll cl (e :: rest)) with
         | none => none
         | some cls => some (cl :: cls)) := rfl

theorem clusterRaw_spec (qfn : List SpatElement → SpatElement → List SpatElement)
    (mp : ℕ)
    (hq : ∀ s p, (keys s).Nodup → (∀ e ∈ qfn s p, e ∈ s) ∧ (qfn s p).Nodup) :
    ∀ fuel sindex res, (keys sindex).Nodup →
      clusterRaw qfn mp fuel sindex = some res →
      List.Perm res.flatten sindex ∧ ∀ c ∈ res, List.Pairwise keyLt c := by
  intro fuel
  induction fuel with
  | zero =>
      intro sindex res hk h
      cases sindex with
      | nil =>
          rw [clusterRaw_nil] at h
          cases h
          exact ⟨List.Perm.refl _, by intro c hc; exact absurd hc (List.not_mem_nil c)⟩
      | cons e rest =>
          rw [clusterRaw_zero] at h
          cases h
  | succ fuel ih =>
      intro sindex res hk h
      cases sindex with
      | nil =>
          rw [clusterRaw_nil] at h
          cases h
          exact ⟨List.Perm.refl _, by intro c hc; exact absurd hc (List.not_mem_nil c)⟩
      | cons e rest =>
          rw [clusterRaw_succ] at h
          cases hg : group qfn (e :: rest) mp (fuel + 1) [e] [] with
          | none => rw [hg] at h; cases h
          | some cl =>
              rw [hg] at h
              have h' : (match clusterRaw qfn mp fuel (removeAll cl (e :: rest)) with
                         | none => none
                         | some cls => some (cl :: cls)) = some res := h
              have hclspec := group_spec qfn (e :: rest) mp
                (fun p => hq (e :: rest) p hk) hk (fuel + 1) [e] [] cl
                (List.Pairwise.nil) (by intro x hx; exact absurd hx (List.not_mem_nil x)) hg
              have hclnd : cl.Nodup := nodup_of_pairwise_keyLt hclspec.1
              have hperm : List.Perm (e :: rest) (cl ++ removeAll cl (e :: rest)) :=
                perm_removeAll cl (e :: rest) hclnd hclspec.2
              have hknd' : (keys (removeAll cl (e :: rest))).Nodup :=
                List.Nodup.sublist ((removeAll_sublist cl (e :: rest)).map Prod.snd) hk
              cases hcr : clusterRaw qfn mp fuel (removeAll cl (e :: rest)) with
              | none => rw [hcr] at h'; cases h'
              | some cls =>
                  rw [hcr] at h'
                  cases h'
                  have hr := ih (removeAll cl (e :: rest)) cls hknd' hcr
                  constructor
                  · -- (cl :: cls).flatten = cl ++ cls.flatten ~ cl ++ removed ~ sindex
                    have h1 : List.Perm (cl ++ cls.flatten)
                        (cl ++ removeAll cl (e :: rest)) :=
                      List.Perm.append_left cl hr.1
                    exact (h1.trans hperm.symm)
                  · intro c hc
                    rcases List.mem_cons.mp hc with hc | hc
                    · exact hc ▸ hclspec.1
                    · exact hr.2 c hc

theorem group_cap (qfn : List SpatElement → SpatElement → List SpatElement)
    (sindex : List SpatElement) (mp : ℕ) (hmp : mp ≠ 0) :
    ∀ fuel pts cl cl', cl.length ≤ mp →
      group qfn sindex mp fuel pts cl = some cl' → cl'.length ≤ mp := by
  intro fuel
  induction fuel with
  | zero =>
      intro pts cl cl' hlen h
      cases pts with
      | nil => rw [group_nil] at h; cases h; exact hlen
      | cons p ps => rw [group_zero] at h; cases h
  | succ fuel ih =>
      intro pts cl cl' hlen h
      cases pts with
      | nil => rw [group_nil] at h; cases h; exact hlen
      | cons p ps =>
          simp only [group_succ_cons] at h
          set newpts := setDiff (sortIdx (qfn sindex p)) cl with hnew_def
          set c := (if mp ≠ 0 ∧ mp < newpts.length + cl.length
                    then mp - cl.length else newpts.length) with hc_def
          set cl2 := sortIdx (cl ++ newpts.take c) with hcl2_def
          have hcl2_len : cl2.length ≤ mp := by
            have hperm : cl2.length = cl.length + (newpts.take c).length := by
              rw [(sortIdx_perm (cl ++ newpts.take c)).length_eq, List.length_append]
            have htl : (newpts.take c).length = min c newpts.length :=
              List.length_take c newpts
            rw [hperm, htl, hc_def]
            split
            · omega
            · omega
          split at h
          · cases hg : group qfn sindex mp fuel newpts cl2 with
            | none => rw [hg] at h; cases h
            | some cl3 =>
                rw [hg] at h
                exact ih ps cl3 cl' (ih newpts cl2 cl3 hcl2_len hg) h
          · exact ih ps cl2 cl' hcl2_len h

theorem clusterRaw_cap (qfn : List SpatElement → SpatElement → List SpatElement)
    (mp : ℕ) (hmp : mp ≠ 0) :
    ∀ fuel sindex res, clusterRaw qfn mp fuel sindex = some res →
      ∀ c ∈ res, c.length ≤ mp := by
  intro fuel
  induction fuel with
  | zero =>
      intro sindex res h
      cases sindex with
      | nil =>
          rw [clusterRaw_nil] at h
          cases h
          intro c hc
          exact absurd hc (List.not_mem_nil c)
      | cons e rest => rw [clusterRaw_zero] at h; cases h
  | succ fuel ih =>
      intro sindex res h
      cases sindex with
      | nil =>
          rw [clusterRaw_nil] at h
          cases h
          intro c hc
          exact absurd hc (List.not_mem_nil c)
      | cons e rest =>
          rw [clusterRaw_succ] at h
          cases hg : group qfn (e :: rest) mp (fuel + 1) [e] [] with
          | none => rw [hg] at h; cases h
          | some cl =>
              rw [hg] at h
              have h' : (match clusterRaw qfn mp fuel (removeAll cl (e :: rest)) with
                         | none => none
                         | some cls => some (cl :: cls)) = some res := h
              cases hcr : clusterRaw qfn mp fuel (removeAll cl (e :: rest)) with
              | none => rw [hcr] at h'; cases h'
              | some cls =>
                  rw [hcr] at h'
                  cases h'
                  intro c hc
                  rcases List.mem_cons.mp hc with hc | hc
                  · subst hc
                    exact group_cap qfn (e :: rest) mp hmp (fuel + 1) [e] [] c
                      (by simp) hg
                  · exact ih (removeAll cl (e :: rest)) cls hcr c hc

/- ***************************************************************************
 * The two supplied query strategies only ever return distinct stored
 * values of the index being queried.
 * ************************************************************************ -/

theorem eraseFar_sublist (p : Vec3) (d : ℚ) (l : List SpatElement) :
    List.Sublist (eraseFar p d l) l := by
  induction l using eraseFar.induct p d with
  | case1 => rw [eraseFar]
  | case2 x h => rw [eraseFar, if_pos h]; exact List.nil_sublist _
  | case3 x h => rw [eraseFar, if_neg h]
  | case4 x y rest h ih =>
      rw [eraseFar, if_pos h]
      exact (ih.cons₂ y).cons x
  | case5 x y rest h ih =>
      rw [eraseFar, if_neg h]
      exact ih.cons₂ x

theorem nearestK_mem {s : List SpatElement} {pt : Vec3} {k : ℕ} :
    ∀ e ∈ nearestK s pt k, e ∈ s := fun _ he =>
  (List.perm_insertionSort (distLeFrom pt) s).mem_iff.mp
    ((List.take_sublist _ _).subset he)

theorem nearestK_nodup {s : List SpatElement} {pt : Vec3} {k : ℕ}
    (hs : s.Nodup) : (nearestK s pt k).Nodup :=
  List.Nodup.sublist (List.take_sublist _ _)
    ((List.perm_insertionSort (distLeFrom pt) s).nodup_iff.mpr hs)

theorem distance_queryfn_valid (s : List SpatElement) (p : SpatElement)
    (dist : ℚ) (mp : ℕ) (hs : s.Nodup) :
    (∀ e ∈ distance_queryfn s p dist mp, e ∈ s) ∧
      (distance_queryfn s p dist mp).Nodup := by
  constructor
  · intro e he
    exact nearestK_mem e ((eraseFar_sublist _ _ _).subset he)
  · exact List.Nodup.sublist (eraseFar_sublist _ _ _) (nearestK_nodup hs)

theorem predicate_queryfn_valid (s : List SpatElement)
    (predicate : SpatElement → SpatElement → Bool) (p : SpatElement)
    (hs : s.Nodup) :
    (∀ e ∈ s.filter (fun e => predicate p e), e ∈ s) ∧
      (s.filter (fun e => predicate p e)).Nodup :=
  ⟨fun _ he => (List.filter_sublist s).subset he,
   List.Nodup.sublist (List.filter_sublist s) hs⟩

/- ***************************************************************************
 * Claim-level partition / size-cap / ordering consequences.
 * ************************************************************************ -/

theorem keys_build (indices : List ℕ) (pointfn : ℕ → Vec3) :
    keys (indices.map fun i => (pointfn i, i)) = indices := by
  unfold keys
  rw [List.map_map]
  exact List.map_id indices

theorem clusterIndex3D_partition (sindex : List SpatElement) (mp : ℕ)
    (qfn : List SpatElement → SpatElement → List SpatElement) (fuel : ℕ)
    (res : List (List ℕ))
    (hq : ∀ s p, (keys s).Nodup → (∀ e ∈ qfn s p, e ∈ s) ∧ (qfn s p).Nodup)
    (hk : (keys sindex).Nodup)
    (h : clusterIndex3D sindex mp qfn fuel = some res) :
    List.Perm res.flatten (keys sindex) ∧ ∀ c ∈ res, List.Sorted (· < ·) c := by
  unfold clusterIndex3D at h
  cases hcr : clusterRaw qfn mp fuel sindex with
  | none => rw [hcr] at h; cases h
  | some craw =>
      rw [hcr, Option.map_some'] at h
      cases h
      have spec := clusterRaw_spec qfn mp hq fuel sindex craw hk hcr
      constructor
      · have hmf : (craw.map keys).flatten = craw.flatten.map Prod.snd :=
          (List.map_flatten Prod.snd craw).symm
        rw [hmf]
        exact spec.1.map Prod.snd
      · intro c hc
        rcases List.mem_map.mp hc with ⟨c0, hc0, hck⟩
        subst hck
        exact List.pairwise_map.mpr (spec.2 c0 hc0)

theorem clusterIndex3D_cap (sindex : List SpatElement) (mp : ℕ)
    (qfn : List SpatElement → SpatElement → List SpatElement) (fuel : ℕ)
    (res : List (List ℕ)) (hmp : mp ≠ 0)
    (h : clusterIndex3D sindex mp qfn fuel = some res) :
    ∀ c ∈ res, c.length ≤ mp := by
  unfold clusterIndex3D at h
  cases hcr : clusterRaw qfn mp fuel sindex with
  | none => rw [hcr] at h; cases h
  | some craw =>
      rw [hcr, Option.map_some'] at h
      cases h
      intro c hc
      rcases List.mem_map.mp hc with ⟨c0, hc0, hck⟩
      subst hck
      have := clusterRaw_cap qfn mp hmp fuel sindex craw hcr c0 hc0
      unfold keys
      rw [List.length_map]
      exact this

/-- C1: for every finite input index set with distinct payload indices and
both supplied query strategies (distance-bounded with any threshold and
max-points, predicate-bounded with any predicate), whenever `cluster`
returns, the returned clusters form a partition of the input index set:
the concatenation of the clusters is a permutation of the input indices
(so every input index appears in exactly one cluster and none from outside
appears), and no cluster contains a duplicate. -/
theorem cluster_returns_partition_c1 (indices : List ℕ) (pointfn : ℕ → Vec3)
    (dist : ℚ) (predicate : SpatElement → SpatElement → Bool) (mp fuel : ℕ)
    (hnd : indices.Nodup) :
    (∀ res, cluster_by_distance indices pointfn dist mp fuel = some res →
      List.Perm res.flatten indices ∧ ∀ c ∈ res, c.Nodup) ∧
    (∀ res, cluster_by_predicate indices pointfn predicate mp fuel = some res →
      List.Perm res.flatten indices ∧ ∀ c ∈ res, c.Nodup) := by
  have hkb : keys (indices.map fun i => (pointfn i, i)) = indices :=
    keys_build indices pointfn
  have hknd : (keys (indices.map fun i => (pointfn i, i))).Nodup := by
    rw [hkb]; exact hnd
  constructor
  · intro res h
    have hp := clusterIndex3D_partition _ mp _ fuel res
      (fun s p hks => distance_queryfn_valid s p dist mp (List.Nodup.of_map _ hks))
      hknd h
    rw [hkb] at hp
    exact ⟨hp.1, fun c hc => List.Sorted.nodup (hp.2 c hc)⟩
  · intro res h
    have hp := clusterIndex3D_partition _ mp _ fuel res
      (fun s p hks => predicate_queryfn_valid s predicate p (List.Nodup.of_map _ hks))
      hknd h
    rw [hkb] at hp
    exact ⟨hp.1, fun c hc => List.Sorted.nodup (hp.2 c hc)⟩

/-- C3: for every input index set and every positive `max_points`, every
cluster returned by `cluster` (distance-bounded or predicate-bounded
variant) has size at most `max_points`: the grouping step's admission
count caps the cluster at `max_points` after every insertion. -/
theorem cluster_size_cap_c3 (indices : List ℕ) (pointfn : ℕ → Vec3)
    (dist : ℚ) (predicate : SpatElement → SpatElement → Bool) (mp fuel : ℕ)
    (hmp : 0 < mp) :
    (∀ res, cluster_by_distance indices pointfn dist mp fuel = some res →
      ∀ c ∈ res, c.length ≤ mp) ∧
    (∀ res, cluster_by_predicate indices pointfn predicate mp fuel = some res →
      ∀ c ∈ res, c.length ≤ mp) := by
  constructor
  · intro res h
    exact clusterIndex3D_cap _ mp _ fuel res (Nat.pos_iff_ne_zero.mp hmp) h
  · intro res h
    exact clusterIndex3D_cap _ mp _ fuel res (Nat.pos_iff_ne_zero.mp hmp) h

/-- C10: every cluster returned by `cluster` (either variant) lists its
payload indices in ascending order — strictly increasing when the input
payload indices are distinct — because the grouping step re-sorts the
cluster by payload index after every insertion and the output copies the
final sorted order. -/
theorem cluster_output_sorted_c10 (indices : List ℕ) (pointfn : ℕ → Vec3)
    (dist : ℚ) (predicate : SpatElement → SpatElement → Bool) (mp fuel : ℕ)
    (hnd : indices.Nodup) :
    (∀ res, cluster_by_distance indices pointfn dist mp fuel = some res →
      ∀ c ∈ res, List.Sorted (· < ·) c) ∧
    (∀ res, cluster_by_predicate indices pointfn predicate mp fuel = some res →
      ∀ c ∈ res, List.Sorted (· < ·) c) := by
  have hkb : keys (indices.map fun i => (pointfn i, i)) = indices :=
    keys_build indices pointfn
  have hknd : (keys (indices.map fun i => (pointfn i, i))).Nodup := by
    rw [hkb]; exact hnd
  constructor
  · intro res h
    exact (clusterIndex3D_partition _ mp _ fuel res
      (fun s p hks => distance_queryfn_valid s p dist mp (List.Nodup.of_map _ hks))
      hknd h).2
  · intro res h
    exact (clusterIndex3D_partition _ mp _ fuel res
      (fun s p hks => predicate_queryfn_valid s predicate p (List.Nodup.of_map _ hks))
      hknd h).2

/-- Witness for C1: a concrete two-point run of the distance-bounded
variant returning two singleton clusters, which indeed partition `[0, 1]`. -/
theorem cluster_returns_partition_c1_witness :
    List.Perm ([[0], [1]] : List (List ℕ)).flatten [0, 1] ∧
      ∀ c ∈ ([[0], [1]] : List (List ℕ)), c.Nodup :=
  (cluster_returns_partition_c1 [0, 1]
    (fun i => if i = 0 then ⟨0, 0, 0⟩ else ⟨10, 0, 0⟩) 1 (fun _ _ => true) 2 9
    (by decide)).1 [[0], [1]] (by with_unfolding_all decide)

/-- Witness for C3: two coincident points with `max_points = 1` produce two
clusters of size 1 ≤ 1. -/
theorem cluster_size_cap_c3_witness :
    ([0] : List ℕ).length ≤ 1 ∧ ([1] : List ℕ).length ≤ 1 :=
  ⟨(cluster_size_cap_c3 [0, 1] (fun _ => ⟨0, 0, 0⟩) 1 (fun _ _ => true) 1 9
      (by decide)).1 [[0], [1]] (by with_unfolding_all decide) [0] (by decide),
   (cluster_size_cap_c3 [0, 1] (fun _ => ⟨0, 0, 0⟩) 1 (fun _ _ => true) 1 9
      (by decide)).1 [[0], [1]] (by with_unfolding_all decide) [1] (by decide)⟩

/-- Witness for C10: inserting indices in order `[1, 0]` still yields the
cluster `[0, 1]`, sorted strictly ascending. -/
theorem cluster_output_sorted_c10_witness :
    List.Sorted (· < ·) ([0, 1] : List ℕ) :=
  (cluster_output_sorted_c10 [1, 0] (fun _ => ⟨0, 0, 0⟩) 1 (fun _ _ => true) 5 9
    (by decide)).1 [[0, 1]] (by with_unfolding_all decide) [0, 1] (by decide)

/- ***************************************************************************
 * Non-termination of the distance strategy at max_points = 0:
 * `bgi::nearest(p, 0)` returns nothing, so no cluster ever grows and the
 * outer loop never removes anything from the index.
 * ************************************************************************ -/

theorem distance_queryfn_mp0 (s : List SpatElement) (p : SpatElement)
    (dist : ℚ) : distance_queryfn s p dist 0 = [] := rfl

theorem sortIdx_nil : sortIdx [] = [] := rfl

theorem group_stuck (qfn : List SpatElement → SpatElement → List SpatElement)
    (sindex : List SpatElement) (mp : ℕ) (e : SpatElement)
    (hq : qfn sindex e = []) (fuel : ℕ) :
    group qfn sindex mp (fuel + 1) [e] [] = some [] := by
  simp only [group_succ_cons, hq, sortIdx_nil, setDiff_nil_right, List.take_nil,
    List.nil_append]
  rw [if_neg (by intro h; exact h.1 rfl)]
  exact group_nil qfn sindex mp fuel []

theorem clusterRaw_stuck (qfn : List SpatElement → SpatElement → List SpatElement)
    (mp : ℕ) (hq : ∀ s e, qfn s e = []) :
    ∀ fuel, ∀ sindex : List SpatElement, sindex ≠ [] →
      clusterRaw qfn mp fuel sindex = none := by
  intro fuel
  induction fuel with
  | zero =>
      intro sindex hne
      cases sindex with
      | nil => exact absurd rfl hne
      | cons e rest => rw [clusterRaw_zero]
  | succ fuel ih =>
      intro sindex hne
      cases sindex with
      | nil => exact absurd rfl hne
      | cons e rest =>
          rw [clusterRaw_succ, group_stuck qfn _ mp e (hq _ e) fuel]
          have h2 : (match clusterRaw qfn mp fuel (removeAll [] (e :: rest)) with
                     | none => none
                     | some cls => some (([] : List SpatElement) :: cls))
              = (none : Option (List (List SpatElement))) := by
            rw [show removeAll [] (e :: rest) = e :: rest from rfl,
              ih (e :: rest) hne]
          exact h2

theorem cluster_by_distance_mp0 (indices : List ℕ) (pointfn : ℕ → Vec3)
    (dist : ℚ) (hne : indices ≠ []) (fuel : ℕ) :
    cluster_by_distance indices pointfn dist 0 fuel = none := by
  unfold cluster_by_distance clusterIndex3D
  rw [clusterRaw_stuck (fun s p => distance_queryfn s p dist 0) 0
    (fun s e => distance_queryfn_mp0 s e dist) fuel _ ?_]
  · rfl
  · intro h
    exact hne (List.map_eq_nil_iff.mp h)

/-- C2 (code bug): for the §8.8 scenario — two tight pairs `0.01` apart
internally and `10` units apart from each other, distance threshold `1.0`,
`max_points = 0` — the distance-bounded `cluster` never returns (modelled:
`none` at every fuel), instead of producing the promised two clusters of
size 2 (resp. an additional singleton when a far point is added): with
`max_points = 0` the query `bgi::nearest(p, 0)` yields no neighbors at
all, every grown cluster stays empty, nothing is removed from the spatial
index, and the outer loop repeats forever. -/
theorem cluster_mp0_scenario_diverges_c2 :
    (∀ fuel, cluster_by_distance [0, 1, 2, 3]
      (fun i => if i = 0 then ⟨0, 0, 0⟩ else if i = 1 then ⟨1/100, 0, 0⟩
        else if i = 2 then ⟨10, 0, 0⟩ else ⟨10 + 1/100, 0, 0⟩)
      1 0 fuel = none) ∧
    (∀ fuel, cluster_by_distance [0, 1, 2, 3, 4]
      (fun i => if i = 0 then ⟨0, 0, 0⟩ else if i = 1 then ⟨1/100, 0, 0⟩
        else if i = 2 then ⟨10, 0, 0⟩ else if i = 3 then ⟨10 + 1/100, 0, 0⟩
        else ⟨1000, 0, 0⟩)
      1 0 fuel = none) :=
  ⟨fun fuel => cluster_by_distance_mp0 _ _ _ (by decide) fuel,
   fun fuel => cluster_by_distance_mp0 _ _ _ (by decide) fuel⟩

/-- C5 (code bug): the distance-bounded `cluster` does not terminate for
every input and every `max_points`: already for a single input point and
`max_points = 0` the spatial index is never emptied (the `nearest(p, 0)`
query returns nothing, so the grown cluster is empty and no element is
ever removed), and the outer loop runs forever — modelled as `none` for
every fuel bound. -/
theorem cluster_mp0_single_diverges_c5 :
    ∀ fuel, cluster_by_distance [0] (fun _ => ⟨0, 0, 0⟩) 1 0 fuel = none :=
  fun fuel => cluster_by_distance_mp0 [0] _ 1 (by decide) fuel

/-- C4 (code bug): `distance_queryfn` can return a neighbor farther than
`dist` from the query point, because `it = tmp.erase(it)` followed by the
loop's `++it` skips the element after each erased one.  With points at
`x = 0, 5, 7`, threshold `1` and `max_points = 3`, the query from point 0
returns the point at distance 7 (the far point at distance 5 is erased and
the next far point is skipped), and clustering then produces the cluster
`{0, 2}` whose two members are `7 > 1` apart — no within-threshold chain
connects them. -/
theorem distance_queryfn_far_neighbor_c4 :
    distance_queryfn
      [(⟨0, 0, 0⟩, 0), (⟨5, 0, 0⟩, 1), (⟨7, 0, 0⟩, 2)] ((⟨0, 0, 0⟩, 0)) 1 3
      = [(⟨0, 0, 0⟩, 0), (⟨7, 0, 0⟩, 2)] ∧
    sqrtGtB (sqDist ⟨0, 0, 0⟩ ⟨7, 0, 0⟩) 1 = true ∧
    cluster_by_distance [0, 1, 2]
      (fun i => if i = 0 then ⟨0, 0, 0⟩ else if i = 1 then ⟨5, 0, 0⟩
        else ⟨7, 0, 0⟩) 1 3 9 = some [[0, 2], [1]] := by
  with_unfolding_all decide

/-- C9: empty inputs produce empty results without error: `normals`
returns an empty result for an empty query index set, for a mesh with no
vertices and for a mesh with no faces (any query set); and both `cluster`
variants return an empty `ClusteredPoints` on an empty input point set. -/
theorem empty_inputs_c9 :
    (∀ pfn mesh oracle eps normed,
      normals pfn mesh oracle eps normed [] = []) ∧
    (∀ pfn F oracle eps normed idxs,
      normals pfn ⟨[], F⟩ oracle eps normed idxs = []) ∧
    (∀ pfn V oracle eps normed idxs,
      normals pfn ⟨V, []⟩ oracle eps normed idxs = []) ∧
    (∀ pointfn dist mp fuel,
      cluster_by_distance [] pointfn dist mp fuel = some []) ∧
    (∀ pointfn predicate mp fuel,
      cluster_by_predicate [] pointfn predicate mp fuel = some []) := by
  refine ⟨?_, ?_, ?_, ?_, ?_⟩
  · intro pfn mesh oracle eps normed
    simp [normals]
  · intro pfn F oracle eps normed idxs
    simp [normals]
  · intro pfn V oracle eps normed idxs
    simp [normals]
  · intro pointfn dist mp fuel
    simp [cluster_by_distance, clusterIndex3D, clusterRaw_nil]
  · intro pointfn predicate mp fuel
    simp [cluster_by_predicate, clusterIndex3D, clusterRaw_nil]

/- ***************************************************************************
 * NormalResolver lemmas and claims.
 * ************************************************************************ -/

theorem classify_interior (p v1 v2 v3 : Vec3) (i1 i2 i3 : ℕ) (eps : ℚ)
    (hv1 : sqrtLtB (sqDist p v1) eps = false)
    (hv2 : sqrtLtB (sqDist p v2) eps = false)
    (hv3 : sqrtLtB (sqDist p v3) eps = false)
    (he12 : point_on_edge p v1 v2 eps = false)
    (he23 : point_on_edge p v2 v3 eps = false)
    (he13 : point_on_edge p v1 v3 eps = false) :
    classify p v1 v2 v3 i1 i2 i3 eps = DegClass.interior := by
  simp [classify, hv1, hv2, hv3, he12, he23, he13]

theorem classify_vertex_mem (p v1 v2 v3 : Vec3) (i1 i2 i3 v : ℕ) (eps : ℚ)
    (h : classify p v1 v2 v3 i1 i2 i3 eps = DegClass.onVertex v) :
    v = i1 ∨ v = i2 ∨ v = i3 := by
  unfold classify at h
  split at h
  · exact Or.inl (DegClass.onVertex.inj h).symm
  · split at h
    · exact Or.inr (Or.inl (DegClass.onVertex.inj h).symm)
    · split at h
      · exact Or.inr (Or.inr (DegClass.onVertex.inj h).symm)
      · split at h
        · cases h
        · split at h
          · cases h
          · split at h
            · cases h
            · cases h

theorem classify_edge_mem (p v1 v2 v3 : Vec3) (i1 i2 i3 a b : ℕ) (eps : ℚ)
    (h : classify p v1 v2 v3 i1 i2 i3 eps = DegClass.onEdge a b) :
    (a = i1 ∧ b = i2) ∨ (a = i2 ∧ b = i3) ∨ (a = i1 ∧ b = i3) := by
  unfold classify at h
  split at h
  · cases h
  · split at h
    · cases h
    · split at h
      · cases h
      · split at h
        · have := DegClass.onEdge.inj h
          exact Or.inl ⟨this.1.symm, this.2.symm⟩
        · split at h
          · have := DegClass.onEdge.inj h
            exact Or.inr (Or.inl ⟨this.1.symm, this.2.symm⟩)
          · split at h
            · have := DegClass.onEdge.inj h
              exact Or.inr (Or.inr ⟨this.1.symm, this.2.symm⟩)
            · cases h

theorem normals_singleton (pfn : ℕ → Vec3) (mesh : Mesh)
    (oracle : Vec3 → ℤ × Vec3) (eps : ℚ) (normed : Vec3 → Vec3) (i : ℕ)
    (hV : mesh.V ≠ []) (hF : mesh.F ≠ []) :
    normals pfn mesh oracle eps normed [i]
      = [proc mesh oracle eps normed (pfn i)] := by
  unfold normals
  rw [if_neg (by simp [hV, hF])]
  rfl

theorem proc_unfold (mesh : Mesh) (oracle : Vec3 → ℤ × Vec3) (eps : ℚ)
    (normed : Vec3 → Vec3) (pt : Vec3) (fid : ℤ) (c : Vec3) (i1 i2 i3 : ℕ)
    (hor : oracle pt = (fid, c)) (hfid : 0 ≤ fid)
    (htr : mesh.F.getD fid.toNat (0, 0, 0) = (i1, i2, i3)) :
    proc mesh oracle eps normed pt =
      (let neigh :=
        match classify c (vtx mesh i1) (vtx mesh i2) (vtx mesh i3) i1 i2 i3 eps with
        | DegClass.onVertex ic => mesh.F.filter (fun t => triContains ic t)
        | DegClass.onEdge ia ib =>
            mesh.F.filter (fun t => triContains ia t && triContains ib t)
        | DegClass.interior => []
      if neigh.isEmpty then
        some (Vec3.cross (Vec3.sub (vtx mesh i2) (vtx mesh i1))
                         (Vec3.sub (vtx mesh i3) (vtx mesh i1)))
      else
        let neighnorms := neigh.map (fun t => normed (faceNormal mesh t))
        let surv := collapseAdj (List.insertionSort sumLe neighnorms)
        some (Vec3.divScalar (vecListSum surv) (surv.length : ℚ))) := by
  simp only [proc, hor]
  rw [if_neg (by rw [not_lt]; exact hfid)]
  rw [htr]

/-- C7: degeneracy classification proceeds in a fixed priority order —
the closest point `p` is tested against the three vertices in order
`v1, v2, v3` (Euclidean distance below `eps`), and only if none matches
are the edges tested in order `(v1,v2), (v2,v3), (v1,v3)` using the
perpendicular distance to the *infinite line* through the endpoints;
otherwise the point is face-interior.  In particular a point within `eps`
of the infinite line but ninety-nine units beyond the segment's span is
still classified on-edge. -/
theorem classify_priority_c7 (p v1 v2 v3 : Vec3) (i1 i2 i3 : ℕ) (eps : ℚ) :
    ((sqrtLtB (sqDist p v1) eps = true →
        classify p v1 v2 v3 i1 i2 i3 eps = DegClass.onVertex i1) ∧
     (sqrtLtB (sqDist p v1) eps = false → sqrtLtB (sqDist p v2) eps = true →
        classify p v1 v2 v3 i1 i2 i3 eps = DegClass.onVertex i2) ∧
     (sqrtLtB (sqDist p v1) eps = false → sqrtLtB (sqDist p v2) eps = false →
      sqrtLtB (sqDist p v3) eps = true →
        classify p v1 v2 v3 i1 i2 i3 eps = DegClass.onVertex i3) ∧
     (sqrtLtB (sqDist p v1) eps = false → sqrtLtB (sqDist p v2) eps = false →
      sqrtLtB (sqDist p v3) eps = false → point_on_edge p v1 v2 eps = true →
        classify p v1 v2 v3 i1 i2 i3 eps = DegClass.onEdge i1 i2) ∧
     (sqrtLtB (sqDist p v1) eps = false → sqrtLtB (sqDist p v2) eps = false →
      sqrtLtB (sqDist p v3) eps = false → point_on_edge p v1 v2 eps = false →
      point_on_edge p v2 v3 eps = true →
        classify p v1 v2 v3 i1 i2 i3 eps = DegClass.onEdge i2 i3) ∧
     (sqrtLtB (sqDist p v1) eps = false → sqrtLtB (sqDist p v2) eps = false →
      sqrtLtB (sqDist p v3) eps = false → point_on_edge p v1 v2 eps = false →
      point_on_edge p v2 v3 eps = false → point_on_edge p v1 v3 eps = true →
        classify p v1 v2 v3 i1 i2 i3 eps = DegClass.onEdge i1 i3) ∧
     (sqrtLtB (sqDist p v1) eps = false → sqrtLtB (sqDist p v2) eps = false →
      sqrtLtB (sqDist p v3) eps = false → point_on_edge p v1 v2 eps = false →
      point_on_edge p v2 v3 eps = false → point_on_edge p v1 v3 eps = false →
        classify p v1 v2 v3 i1 i2 i3 eps = DegClass.interior)) ∧
    -- a point on the x-axis 99 units beyond the segment from (0,0,0) to
    -- (1,0,0) — far outside the segment's span, vertex distances ≥ 99 —
    -- is classified on-edge for that segment
    classify ⟨100, 0, 0⟩ ⟨0, 0, 0⟩ ⟨1, 0, 0⟩ ⟨0, 5, 0⟩ 7 8 9 (1/20)
      = DegClass.onEdge 7 8 ∧
    sqrtGtB (sqDist ⟨100, 0, 0⟩ ⟨0, 0, 0⟩) 99 = true ∧
    sqrtGtB (sqDist ⟨100, 0, 0⟩ ⟨1, 0, 0⟩) 98 = true := by
  refine ⟨⟨?_, ?_, ?_, ?_, ?_, ?_, ?_⟩, ?_, ?_, ?_⟩
  · intro h1; simp [classify, h1]
  · intro h1 h2; simp [classify, h1, h2]
  · intro h1 h2 h3; simp [classify, h1, h2, h3]
  · intro h1 h2 h3 h4; simp [classify, h1, h2, h3, h4]
  · intro h1 h2 h3 h4 h5; simp [classify, h1, h2, h3, h4, h5]
  · intro h1 h2 h3 h4 h5 h6; simp [classify, h1, h2, h3, h4, h5, h6]
  · intro h1 h2 h3 h4 h5 h6
    exact classify_interior p v1 v2 v3 i1 i2 i3 eps h1 h2 h3 h4 h5 h6
  · with_unfolding_all decide
  · with_unfolding_all decide
  · with_unfolding_all decide

/-- Witness for C7: the classification chain applied at a concrete query
on a vertex of the unit right triangle returns on-vertex for the first
vertex, via the first conjunct of the priority theorem. -/
theorem classify_priority_c7_witness :
    classify ⟨0, 0, 0⟩ ⟨0, 0, 0⟩ ⟨1, 0, 0⟩ ⟨0, 1, 0⟩ 4 5 6 (1/20)
      = DegClass.onVertex 4 :=
  (classify_priority_c7 ⟨0, 0, 0⟩ ⟨0, 0, 0⟩ ⟨1, 0, 0⟩ ⟨0, 1, 0⟩ 4 5 6
    (1/20)).1.1 (by with_unfolding_all decide)

/-- C8: for a query point whose closest surface point is classified
face-interior — farther than `eps` from all three vertices and beyond
`eps` of all three infinite edge lines — `normals` returns exactly the
un-normalized cross product `cross(v1 − v0, v2 − v0)` of the owning
face's vertices. -/
theorem normals_face_interior_c8 (pfn : ℕ → Vec3) (mesh : Mesh)
    (oracle : Vec3 → ℤ × Vec3) (eps : ℚ) (normed : Vec3 → Vec3)
    (i : ℕ) (fid : ℤ) (c q1 q2 q3 : Vec3) (i1 i2 i3 : ℕ)
    (hV : mesh.V ≠ []) (hF : mesh.F ≠ [])
    (hor : oracle (pfn i) = (fid, c)) (hfid : 0 ≤ fid)
    (htr : mesh.F.getD fid.toNat (0, 0, 0) = (i1, i2, i3))
    (h1 : vtx mesh i1 = q1) (h2 : vtx mesh i2 = q2) (h3 : vtx mesh i3 = q3)
    (hv1 : sqrtLtB (sqDist c q1) eps = false)
    (hv2 : sqrtLtB (sqDist c q2) eps = false)
    (hv3 : sqrtLtB (sqDist c q3) eps = false)
    (he12 : point_on_edge c q1 q2 eps = false)
    (he23 : point_on_edge c q2 q3 eps = false)
    (he13 : point_on_edge c q1 q3 eps = false) :
    normals pfn mesh oracle eps normed [i]
      = [some (Vec3.cross (Vec3.sub q2 q1) (Vec3.sub q3 q1))] := by
  rw [normals_singleton pfn mesh oracle eps normed i hV hF,
    proc_unfold mesh oracle eps normed (pfn i) fid c i1 i2 i3 hor hfid htr]
  rw [h1, h2, h3,
    classify_interior c q1 q2 q3 i1 i2 i3 eps hv1 hv2 hv3 he12 he23 he13]
  rfl

/-- Witness for C8: a query strictly inside the unit right triangle
(closest point `(1/2, 1/4, 0)`) yields the un-normalized cross product
`(0, 0, 1)` of the face's edge vectors. -/
theorem normals_face_interior_c8_witness :
    normals (fun _ => ⟨1/2, 1/4, 0⟩)
      ⟨[⟨0, 0, 0⟩, ⟨1, 0, 0⟩, ⟨0, 1, 0⟩], [(0, 1, 2)]⟩
      (fun _ => (0, ⟨1/2, 1/4, 0⟩)) (1/20) (fun v => v) [0]
      = [some (Vec3.cross (Vec3.sub ⟨1, 0, 0⟩ ⟨0, 0, 0⟩)
                          (Vec3.sub ⟨0, 1, 0⟩ ⟨0, 0, 0⟩))] :=
  normals_face_interior_c8 _ _ _ _ _ 0 0 ⟨1/2, 1/4, 0⟩ ⟨0, 0, 0⟩ ⟨1, 0, 0⟩
    ⟨0, 1, 0⟩ 0 1 2 (by decide) (by decide) rfl (by decide) rfl rfl rfl rfl
    (by with_unfolding_all decide) (by with_unfolding_all decide)
    (by with_unfolding_all decide) (by with_unfolding_all decide)
    (by with_unfolding_all decide) (by with_unfolding_all decide)

/-- C6: for a query point classified on-vertex (resp. on-edge), `normals`
returns the arithmetic mean — the sum divided by the count, without
re-normalization — of the surviving neighbor unit normals, where the
neighbors are exactly the faces of `F` whose vertex triple contains the
identified vertex (resp. both identified edge endpoints), each neighbor
normal is the normalized cross product of the face's edge vectors, and
the survivors are obtained by sorting the normals by coordinate sum and
collapsing adjacent pairs whose three coordinatewise absolute differences
are all below `1e-3` (an adjacent-only collapse that can miss
non-adjacent near-duplicates). -/
theorem normals_degenerate_mean_c6 (pfn : ℕ → Vec3) (mesh : Mesh)
    (oracle : Vec3 → ℤ × Vec3) (eps : ℚ) (normed : Vec3 → Vec3)
    (i : ℕ) (fid : ℤ) (c q1 q2 q3 : Vec3) (i1 i2 i3 : ℕ)
    (hV : mesh.V ≠ []) (hF : mesh.F ≠ [])
    (hor : oracle (pfn i) = (fid, c)) (hfid : 0 ≤ fid)
    (hlen : fid.toNat < mesh.F.length)
    (htr : mesh.F.getD fid.toNat (0, 0, 0) = (i1, i2, i3))
    (h1 : vtx mesh i1 = q1) (h2 : vtx mesh i2 = q2) (h3 : vtx mesh i3 = q3) :
    (∀ v, classify c q1 q2 q3 i1 i2 i3 eps = DegClass.onVertex v →
      normals pfn mesh oracle eps normed [i] =
        [some (Vec3.divScalar
          (vecListSum (collapseAdj (List.insertionSort sumLe
            ((mesh.F.filter (fun t => triContains v t)).map
              (fun t => normed (faceNormal mesh t))))))
          (((collapseAdj (List.insertionSort sumLe
            ((mesh.F.filter (fun t => triContains v t)).map
              (fun t => normed (faceNormal mesh t))))).length : ℚ)))]) ∧
    (∀ a b, classify c q1 q2 q3 i1 i2 i3 eps = DegClass.onEdge a b →
      normals pfn mesh oracle eps normed [i] =
        [some (Vec3.divScalar
          (vecListSum (collapseAdj (List.insertionSort sumLe
            ((mesh.F.filter (fun t => triContains a t && triContains b t)).map
              (fun t => normed (faceNormal mesh t))))))
          (((collapseAdj (List.insertionSort sumLe
            ((mesh.F.filter (fun t => triContains a t && triContains b t)).map
              (fun t => normed (faceNormal mesh t))))).length : ℚ)))]) := by
  have hmem : (i1, i2, i3) ∈ mesh.F := by
    rw [← htr, List.getD_eq_getElem mesh.F (0, 0, 0) hlen]
    exact List.getElem_mem hlen
  constructor
  · intro v hcls
    have hvm : v = i1 ∨ v = i2 ∨ v = i3 :=
      classify_vertex_mem c q1 q2 q3 i1 i2 i3 v eps hcls
    have hcont : triContains v (i1, i2, i3) = true := by
      rcases hvm with h | h | h <;> subst h <;> simp [triContains]
    have hne : mesh.F.filter (fun t => triContains v t) ≠ [] :=
      List.ne_nil_of_mem (List.mem_filter.mpr ⟨hmem, hcont⟩)
    rw [normals_singleton pfn mesh oracle eps normed i hV hF,
      proc_unfold mesh oracle eps normed (pfn i) fid c i1 i2 i3 hor hfid htr,
      h1, h2, h3, hcls]
    simp only []
    rw [if_neg (by simp [List.isEmpty_iff, hne])]
  · intro a b hcls
    have habm : (a = i1 ∧ b = i2) ∨ (a = i2 ∧ b = i3) ∨ (a = i1 ∧ b = i3) :=
      classify_edge_mem c q1 q2 q3 i1 i2 i3 a b eps hcls
    have hcont : (triContains a (i1, i2, i3) && triContains b (i1, i2, i3)) = true := by
      rcases habm with ⟨ha, hb⟩ | ⟨ha, hb⟩ | ⟨ha, hb⟩ <;> subst ha <;> subst hb <;>
        simp [triContains]
    have hne : mesh.F.filter (fun t => triContains a t && triContains b t) ≠ [] :=
      List.ne_nil_of_mem (List.mem_filter.mpr ⟨hmem, hcont⟩)
    rw [normals_singleton pfn mesh oracle eps normed i hV hF,
      proc_unfold mesh oracle eps normed (pfn i) fid c i1 i2 i3 hor hfid htr,
      h1, h2, h3, hcls]
    simp only []
    rw [if_neg (by simp [List.isEmpty_iff, hne])]

/-- Witness for C6: the query at the shared vertex `(1,0,0)` of two
coplanar unit triangles aggregates the two (identical, hence collapsed)
neighbor unit normals into the mean `(0, 0, 1)`. -/
theorem normals_degenerate_mean_c6_witness :
    normals (fun _ => ⟨1, 0, 0⟩)
      ⟨[⟨0, 0, 0⟩, ⟨1, 0, 0⟩, ⟨0, 1, 0⟩, ⟨1, 1, 0⟩], [(0, 1, 2), (1, 3, 2)]⟩
      (fun _ => (0, ⟨1, 0, 0⟩)) (1/20) (fun v => v) [0]
      = [some ⟨0, 0, 1⟩] := by
  have h := (normals_degenerate_mean_c6 (fun _ => ⟨1, 0, 0⟩)
    ⟨[⟨0, 0, 0⟩, ⟨1, 0, 0⟩, ⟨0, 1, 0⟩, ⟨1, 1, 0⟩], [(0, 1, 2), (1, 3, 2)]⟩
    (fun _ => (0, ⟨1, 0, 0⟩)) (1/20) (fun v => v) 0 0 ⟨1, 0, 0⟩
    ⟨0, 0, 0⟩ ⟨1, 0, 0⟩ ⟨0, 1, 0⟩ 0 1 2 (by decide) (by decide) rfl
    (by decide) (by decide) rfl rfl rfl rfl).1 1
    (by with_unfolding_all decide)
  rw [h]
  with_unfolding_all decide

end MSlicer
